import Mathlib

/-!
Verification of the progressive import pipeline of `src/src-tauri/src/lib.rs`
(draw-stack-app).

Shallow embedding conventions:
* OS file names are byte sequences (`List Nat`, each byte < 256 in practice);
  this captures Rust's `OsStr`, `Path::extension`, `OsStr::to_str` (UTF-8
  validation) and `to_string_lossy` behaviour that the scanner relies on.
* Filesystem paths are component lists (`List (List Nat)`); display strings
  join components with "/" (the model has one separator; absolute-path
  prefixes are carried inside the root component list supplied by the caller).
* The filesystem itself is a tree of entries; a directory carries a
  `readable` flag modelling whether `fs::read_dir` succeeds on it;
  an `other` entry models something that is neither `is_dir` nor `is_file`
  (e.g. a broken symlink) and is skipped by the scanner's loop.
* Effectful collaborators of `import_pack_progressive` (UUID generation,
  `generate_fast_thumbnail`, `app.emit`) are oracles indexed by call order;
  success or failure of each call is the oracle's value, mirroring the
  `Result` the Rust code receives.
* The `f32` completion percentage is modelled over `ℚ` with the exact
  formula of the code, `((batch_num + 1) / total_batches) * 100`.
-/

/-- The fixed recognized image extensions (`VALID_EXTENSIONS` in lib.rs). -/
def VALID_EXTENSIONS : List String := ["jpg", "jpeg", "png", "webp", "gif", "bmp"]

/-- A byte of an OS string. -/
abbrev OsByte := Nat

/-- An OS file-name: raw bytes, as Rust's `OsStr` stores on Unix. -/
abbrev OsName := List OsByte

/-- A filesystem path as a list of name components. -/
abbrev FsPath := List OsName

/-- Is `b` a UTF-8 continuation byte (0x80–0xBF)? -/
def isCont (b : OsByte) : Bool := 128 ≤ b && b ≤ 191

/-- Allowed second byte after a 3-byte lead (excludes overlong forms and
surrogates, as Rust's UTF-8 validation does). -/
def cont3Ok (b b1 : OsByte) : Bool :=
  if b = 224 then 160 ≤ b1 && b1 ≤ 191
  else if b = 237 then 128 ≤ b1 && b1 ≤ 159
  else isCont b1

/-- Allowed second byte after a 4-byte lead (excludes overlong forms and
code points above U+10FFFF, as Rust's UTF-8 validation does). -/
def cont4Ok (b b1 : OsByte) : Bool :=
  if b = 240 then 144 ≤ b1 && b1 ≤ 191
  else if b = 244 then 128 ≤ b1 && b1 ≤ 143
  else isCont b1

/-- Strict UTF-8 decoding of a byte sequence into code points; `none` on any
invalid sequence. Models the check behind `OsStr::to_str`. -/
def utf8Decode : List OsByte → Option (List Nat)
  | [] => some []
  | b :: rest =>
    if b ≤ 127 then (utf8Decode rest).map (b :: ·)
    else if 194 ≤ b && b ≤ 223 then
      match rest with
      | b1 :: rest2 =>
        if isCont b1 then
          (utf8Decode rest2).map (((b - 192) * 64 + (b1 - 128)) :: ·)
        else none
      | [] => none
    else if 224 ≤ b && b ≤ 239 then
      match rest with
      | b1 :: b2 :: rest2 =>
        if cont3Ok b b1 && isCont b2 then
          (utf8Decode rest2).map
            (((b - 224) * 4096 + (b1 - 128) * 64 + (b2 - 128)) :: ·)
        else none
      | _ => none
    else if 240 ≤ b && b ≤ 244 then
      match rest with
      | b1 :: b2 :: b3 :: rest2 =>
        if cont4Ok b b1 && isCont b2 && isCont b3 then
          (utf8Decode rest2).map
            (((b - 240) * 262144 + (b1 - 128) * 4096 + (b2 - 128) * 64 + (b3 - 128)) :: ·)
        else none
      | _ => none
    else none

/-- `OsStr::to_str`: the name as a `String` when it is valid UTF-8. -/
def osToStr (l : OsName) : Option String :=
  (utf8Decode l).map (fun cps => String.mk (cps.map Char.ofNat))

/-- ASCII lower-casing of one character. Models Rust's `str::to_lowercase`
for the purposes of this code: the two agree on ASCII, and no non-ASCII code
point lowercases (in Unicode) to a single ASCII letter occurring in the
extension set, so membership in `VALID_EXTENSIONS` is unaffected. -/
def lowerChar (c : Char) : Char :=
  if 65 ≤ c.toNat && c.toNat ≤ 90 then Char.ofNat (c.toNat + 32) else c

/-- `to_lowercase` on a string. -/
def lowerStr (s : String) : String := String.mk (s.data.map lowerChar)

/-- Lexicographic order on code-point lists. -/
def cpListLe : List Nat → List Nat → Bool
  | [], _ => true
  | _ :: _, [] => false
  | a :: as, b :: bs => if a < b then true else if b < a then false else cpListLe as bs

/-- `a.cmp(&b) ≤ Equal` on Rust strings: lexicographic comparison (byte order
on UTF-8 coincides with code-point order). -/
def strLe (a b : String) : Bool :=
  cpListLe (a.data.map Char.toNat) (b.data.map Char.toNat)

/-- In-flight state of the lossy UTF-8 decoder: accumulated bits, number of
continuation bytes still expected, and total sequence length (2, 3 or 4). -/
structure Utf8State where
  acc : Nat
  need : Nat
  len : Nat
deriving DecidableEq

/-- The replacement character U+FFFD. -/
def replChar : Char := Char.ofNat 0xFFFD

/-- Start decoding at a lead byte: characters emitted now and the pending
multi-byte state, if any. -/
def leadStep (b : OsByte) : List Char × Option Utf8State :=
  if b ≤ 127 then ([Char.ofNat b], none)
  else if 194 ≤ b && b ≤ 223 then ([], some ⟨b - 192, 1, 2⟩)
  else if 224 ≤ b && b ≤ 239 then ([], some ⟨b - 224, 2, 3⟩)
  else if 240 ≤ b && b ≤ 244 then ([], some ⟨b - 240, 3, 4⟩)
  else ([replChar], none)

/-- Finish a multi-byte sequence: reject overlong forms, surrogates and
out-of-range code points (they never arise from the per-lead ranges of
`leadStep` except via these end checks). -/
def finishCp (len cp : Nat) : List Char :=
  if len = 3 && (cp < 0x800 || (0xD800 ≤ cp && cp ≤ 0xDFFF)) then [replChar]
  else if len = 4 && (cp < 0x10000 || 0x10FFFF < cp) then [replChar]
  else [Char.ofNat cp]

/-- Lossy decoding (`to_string_lossy`) as a byte-at-a-time state machine:
invalid sequences become U+FFFD. (Rust emits one replacement character per
maximal invalid sequence; this model may emit a different number of
replacement characters on malformed input — the difference only affects the
display of malformed names, which no claim distinguishes.) -/
def lossyCharsAux : Option Utf8State → List OsByte → List Char
  | none, [] => []
  | some _, [] => [replChar]
  | none, b :: rest =>
    let st := leadStep b
    st.1 ++ lossyCharsAux st.2 rest
  | some st, b :: rest =>
    if isCont b then
      let acc := st.acc * 64 + (b - 128)
      if st.need = 1 then finishCp st.len acc ++ lossyCharsAux none rest
      else lossyCharsAux (some ⟨acc, st.need - 1, st.len⟩) rest
    else
      let st2 := leadStep b
      replChar :: (st2.1 ++ lossyCharsAux st2.2 rest)

/-- Lossy decoding of one name. -/
def lossyChars (l : List OsByte) : List Char := lossyCharsAux none l

/-- `to_string_lossy` on one name. -/
def lossyStr (l : OsName) : String := String.mk (lossyChars l)

/-- `to_string_lossy` of a whole path (components joined by "/"). -/
def lossyPathDisplay (p : FsPath) : String :=
  String.intercalate "/" (p.map lossyStr)

/-- `Path::to_str` of a whole path: defined iff every component is UTF-8. -/
def pathToStr (p : FsPath) : Option String :=
  (p.mapM osToStr).map (String.intercalate "/")

/-- Index of the last `.` (byte 46) in a name, if any. -/
def lastDotIdx (l : OsName) : Option Nat :=
  (List.range l.length).foldl
    (fun acc i => if l.getD i 0 = 46 then some i else acc) none

/-- `Path::extension` on a file name: the bytes after the last dot; `none`
when there is no dot, when the only dot is the leading byte (hidden files like
`.gitignore`), or for the special name `..`. -/
def rustExtension (name : OsName) : Option OsName :=
  if name = [46, 46] then none
  else
    match lastDotIdx name with
    | none => none
    | some i => if i = 0 then none else some (name.drop (i + 1))

/-- The extension check of `scan_for_images` / `browse_folder`: the entry has
an extension, the extension is valid UTF-8, and its lower-cased form is one of
the six recognized image extensions. -/
def isValidImage (name : OsName) : Bool :=
  match rustExtension name with
  | none => false
  | some ext =>
    match osToStr ext with
    | none => false
    | some s => VALID_EXTENSIONS.contains (lowerStr s)

/-- UTF-8 encoding of one code point (used only to build concrete test names
from string literals). -/
def encodeCp (c : Nat) : List OsByte :=
  if c ≤ 0x7F then [c]
  else if c ≤ 0x7FF then [192 + c / 64, 128 + c % 64]
  else if c ≤ 0xFFFF then [224 + c / 4096, 128 + (c / 64) % 64, 128 + c % 64]
  else [240 + c / 262144, 128 + (c / 4096) % 64, 128 + (c / 64) % 64, 128 + c % 64]

/-- Bytes of a Lean string literal, for building concrete filesystem trees. -/
def strBytes (s : String) : OsName := s.data.flatMap (fun c => encodeCp c.toNat)

mutual
/-- A filesystem entry. A directory carries whether `fs::read_dir` succeeds
on it (`readable`); `other` is an entry that is neither `is_dir` nor
`is_file` and is skipped by the scanner loop. -/
inductive FsEntry where
  | file : OsName → FsEntry
  | other : OsName → FsEntry
  | dir : OsName → Bool → FsEntries → FsEntry

/-- Directory contents, in platform listing order. -/
inductive FsEntries where
  | nil : FsEntries
  | cons : FsEntry → FsEntries → FsEntries
end

/-- Convert directory contents to a plain list. -/
def FsEntries.toList : FsEntries → List FsEntry
  | .nil => []
  | .cons e es => e :: es.toList

/-- `entry_path.is_dir()`. -/
def FsEntry.isDirE : FsEntry → Bool
  | .dir _ _ _ => true
  | _ => false

/-- `entry_path.is_file()`. -/
def FsEntry.isFileE : FsEntry → Bool
  | .file _ => true
  | _ => false

/-- The entry's own file name. -/
def FsEntry.nameOf : FsEntry → OsName
  | .file n => n
  | .other n => n
  | .dir n _ _ => n

/-- `fs::read_dir`: contents of a readable directory; fails on an unreadable
directory and on non-directory entries. -/
def readDir : FsEntry → Option FsEntries
  | .dir _ true es => some es
  | _ => none

mutual
/-- `scan_recursive` of lib.rs, for a path that exists (the recursive calls
are always on paths just produced by `read_dir`, so their `exists` check
succeeds; the root-level check is in `scanForImages`). The `read_dir` match
is inlined here (an unreadable directory, or a non-directory, fails with the
`Failed to read directory` error). The `&mut Vec` accumulator of the Rust
code is rendered as list concatenation in traversal order; an error from a
subdirectory aborts the whole scan (the `?`). -/
def scanRecursive (p : FsPath) (e : FsEntry) : Except String (List FsPath) :=
  match e with
  | .dir _ true es => scanEntriesAux p es
  | _ => .error ("Failed to read directory " ++ lossyPathDisplay p)

/-- The `for entry in entries.flatten()` loop body of `scan_recursive`. -/
def scanEntriesAux (p : FsPath) : FsEntries → Except String (List FsPath)
  | .nil => .ok []
  | .cons c cs =>
    if c.isDirE then
      match scanRecursive (p ++ [c.nameOf]) c with
      | .error e => .error e
      | .ok l =>
        match scanEntriesAux p cs with
        | .error e => .error e
        | .ok l2 => .ok (l ++ l2)
    else if c.isFileE then
      match scanEntriesAux p cs with
      | .error e => .error e
      | .ok l2 => .ok ((if isValidImage c.nameOf then [p ++ [c.nameOf]] else []) ++ l2)
    else scanEntriesAux p cs
end

deriving instance DecidableEq for Except

/-- `scan_for_images`: the `Option FsEntry` argument is the entry at the root
path (`none` models `!path.exists()`). -/
def scanForImages (root : FsPath) (fs : Option FsEntry) : Except String (List FsPath) :=
  match fs with
  | none => .error ("Path does not exist: " ++ lossyPathDisplay root)
  | some e => scanRecursive root e

mutual
/-- All regular files transitively under an entry (paths in traversal order),
regardless of extension: the reference set that `scanForImages` filters. -/
def allFilesE (p : FsPath) : FsEntry → List FsPath
  | .file n => [p ++ [n]]
  | .other _ => []
  | .dir n _ sub => allFilesL (p ++ [n]) sub

/-- All regular files transitively under a directory listing. -/
def allFilesL (p : FsPath) : FsEntries → List FsPath
  | .nil => []
  | .cons c cs => allFilesE p c ++ allFilesL p cs
end

mutual
/-- Every directory of the tree (the entry itself included, if a directory)
is readable. -/
def allReadableE : FsEntry → Bool
  | .file _ => true
  | .other _ => true
  | .dir _ r sub => r && allReadableL sub

/-- Every directory occurring in a listing is (transitively) readable. -/
def allReadableL : FsEntries → Bool
  | .nil => true
  | .cons c cs => allReadableE c && allReadableL cs
end

/-- `Path::parent` on a component path: `none` for the empty path. -/
def parentComps : FsPath → Option FsPath
  | [] => none
  | l => some l.dropLast

/-- `Path::strip_prefix` (infallible cases): drops `root` when it is a prefix. -/
def stripRoot (root q : FsPath) : Option FsPath :=
  if root.isPrefixOf q then some (q.drop root.length) else none

/-- `file_name().and_then(to_str)` on a scan-produced path, with the
`unwrap_or("unknown")` of `import_pack_progressive`. -/
def fileNameStr (q : FsPath) : String :=
  match q.getLast? with
  | none => "unknown"
  | some n => (osToStr n).getD "unknown"

/-- `ThumbnailInfo` of lib.rs. -/
structure ThumbnailInfo where
  id : String
  original_path : String
  thumbnail_path : String
  filename : String
  relative_path : String
deriving DecidableEq

/-- `BatchProgress` of lib.rs. The `f32` progress is modelled over `ℚ`
with the exact formula of the code. -/
structure BatchProgress where
  batch : Nat
  total_batches : Nat
  thumbnails : List ThumbnailInfo
  progress : ℚ
deriving DecidableEq

/-- `FolderInfo` of lib.rs. -/
structure FolderInfo where
  path : String
  name : String
  image_count : Nat
deriving DecidableEq

/-- `QuickScanResult` of lib.rs. -/
structure QuickScanResult where
  total : Nat
  folders : List FolderInfo
deriving DecidableEq

/-- `ImageInfo` of lib.rs. -/
structure ImageInfo where
  path : String
  filename : String
deriving DecidableEq

/-- `FolderContents` of lib.rs. -/
structure FolderContents where
  folders : List FolderInfo
  images : List ImageInfo
  path : String
deriving DecidableEq

/-- The effectful collaborators of `import_pack_progressive`, as oracles
indexed by call order: `ids i` is the `Uuid::new_v4()` string of the i-th
image, `gen i` the outcome of `generate_fast_thumbnail` on it (`ok` carries
the returned thumbnail path, `error` any of its failure strings — `Skip` on
decode/encode failure, or the app-data/`create_dir_all` messages), and
`emitOk b` whether `app.emit` succeeds on batch `b`. -/
structure ImportEnv where
  ids : Nat → String
  gen : Nat → Except String String
  emitOk : Nat → Bool

/-- The per-image record construction inside the batch loop of
`import_pack_progressive` (the closure of the `filter_map`, which always
produces `Some`). -/
def mkRecord (env : ImportEnv) (root : FsPath) (i : Nat) (q : FsPath) : ThumbnailInfo :=
  let image_id := env.ids i
  let filename := fileNameStr q
  let relative_path := (((stripRoot root q).bind parentComps).bind pathToStr).getD ""
  let original_path := lossyPathDisplay q
  let thumbnail_path :=
    match env.gen i with
    | .ok t => t
    | .error _ => original_path
  ⟨image_id, original_path, thumbnail_path, filename, relative_path⟩

/-- The records of one batch, with global image indices starting at `g`
(each iteration makes fresh `Uuid::new_v4` / `generate_fast_thumbnail`
calls, so the oracle index advances by one per image). -/
def mkBatchRecords (env : ImportEnv) (root : FsPath) : Nat → List FsPath → List ThumbnailInfo
  | _, [] => []
  | g, q :: qs => mkRecord env root g q :: mkBatchRecords env root (g + 1) qs

/-- `slice::chunks`, fueled for structural termination (`fuel` is only a
termination device; it is instantiated with the list length, which always
suffices). -/
def chunksFuel (n : Nat) : Nat → List α → List (List α)
  | _, [] => []
  | 0, _ :: _ => []
  | fuel + 1, x :: xs => (x :: xs.take (n - 1)) :: chunksFuel n fuel (xs.drop (n - 1))

/-- `images.chunks(batch_size)`: contiguous slices of size `n` (last one
possibly shorter). -/
def chunksOf (n : Nat) (l : List α) : List (List α) := chunksFuel n l.length l

/-- The `for (batch_num, chunk) in images.chunks(batch_size).enumerate()`
loop of `import_pack_progressive`: builds each batch's records, computes
`progress = ((batch_num + 1) / total_batches) * 100`, and emits the report;
a failed emit aborts with `Failed to emit event` and the remaining batches
are not processed. Returns the reports actually delivered and the
operation's error, if any. -/
def runBatches (env : ImportEnv) (root : FsPath) (T : Nat) :
    List (List FsPath) → Nat → Nat → List BatchProgress × Option String
  | [], _, _ => ([], none)
  | chunk :: rest, b, g =>
    let recs := mkBatchRecords env root g chunk
    let report : BatchProgress := ⟨b, T, recs, ((b + 1 : ℚ) / (T : ℚ)) * 100⟩
    if env.emitOk b then
      let res := runBatches env root T rest (b + 1) (g + chunk.length)
      (report :: res.1, res.2)
    else ([], some "Failed to emit event")

/-- `import_pack_progressive`: scans once (propagating the scanner's error
with no report emitted), computes `total_batches = (total + batch_size - 1)
/ batch_size` with `batch_size = 100`, and runs the batch loop. The result
pairs the delivered `BatchProgress` reports with the run's terminal error
(`none` = the Rust function returned `Ok(())`). -/
def importPackProgressive (env : ImportEnv) (root : FsPath) (fs : Option FsEntry) :
    List BatchProgress × Option String :=
  match scanForImages root fs with
  | .error e => ([], some e)
  | .ok images =>
    runBatches env root ((images.length + 100 - 1) / 100) (chunksOf 100 images) 0 0

/-- One step of the `folder_map` accumulation of `quick_scan`
(`*folder_map.entry(parent_str).or_insert(0) += 1`), on the association-list
rendering of the `HashMap`. -/
def bump (k : String) : List (String × Nat) → List (String × Nat)
  | [] => [(k, 1)]
  | (k0, c) :: rest => if k0 = k then (k0, c + 1) :: rest else (k0, c) :: bump k rest

/-- The `folder_map` of `quick_scan`: image counts grouped by the parent
directory's `to_string_lossy` key. Rust's `HashMap` iterates in an
unspecified order; this model fixes first-insertion order as the
deterministic representative (the code applies no sort afterwards). -/
def folderStep (m : List (String × Nat)) (q : FsPath) : List (String × Nat) :=
  match parentComps q with
  | some par => bump (lossyPathDisplay par) m
  | none => m

/-- The folder map accumulated over all scanned images
(`for img_path in &images { ... }`). -/
def folderMapOf (imgs : List FsPath) : List (String × Nat) :=
  imgs.foldl folderStep []

/-- Split a character list at every '/'. -/
def splitSlash : List Char → List (List Char)
  | [] => [[]]
  | c :: rest =>
    if c = '/' then [] :: splitSlash rest
    else
      match splitSlash rest with
      | [] => [[c]]
      | seg :: segs => (c :: seg) :: segs

/-- `Path::file_name` on a display string produced by this model: the last
"/"-separated segment ("" and "." segments are not normal path components,
and a final ".." yields `none`, as in Rust). -/
def rustFileName (s : String) : Option String :=
  match (((splitSlash s.data).map String.mk).filter (fun c => c ≠ "" && c ≠ ".")).getLast? with
  | none => none
  | some c => if c = ".." then none else some c

/-- `quick_scan`: scan, then group by parent folder. Folder names come from
`Path::new(&path).file_name()` with `unwrap_or("Unknown")`. -/
def quickScanOp (root : FsPath) (fs : Option FsEntry) : Except String QuickScanResult :=
  match scanForImages root fs with
  | .error e => .error e
  | .ok imgs =>
    .ok ⟨imgs.length,
      (folderMapOf imgs).map
        (fun pr => ⟨pr.1, (rustFileName pr.1).getD "Unknown", pr.2⟩)⟩

/-- `count_folder_images`: `scan_for_images(path).unwrap_or_default().len()`,
always wrapped in `Ok`. -/
def countFolderImages (root : FsPath) (fs : Option FsEntry) : Except String Nat :=
  .ok (match scanForImages root fs with
    | .ok l => l
    | .error _ => []).length

/-- The comparator of `folders.sort_by(|a, b|
a.name.to_lowercase().cmp(&b.name.to_lowercase()))`. -/
def folderNameLe (a b : FolderInfo) : Bool := strLe (lowerStr a.name) (lowerStr b.name)

/-- The comparator of `images.sort_by(|a, b|
a.filename.to_lowercase().cmp(&b.filename.to_lowercase()))`. -/
def imageNameLe (a b : ImageInfo) : Bool := strLe (lowerStr a.filename) (lowerStr b.filename)

/-- `browse_folder`: non-recursive listing of one directory; subdirectories
become `FolderInfo` entries with count 0, image files become `ImageInfo`
entries; both listings are then sorted case-insensitively (`sort_by` is a
stable comparator sort, modelled by `List.mergeSort`). -/
def browseFolder (root : FsPath) (fs : Option FsEntry) : Except String FolderContents :=
  match fs with
  | none => .error "Folder does not exist"
  | some e =>
    match readDir e with
    | none => .error ("Failed to read directory " ++ lossyPathDisplay root)
    | some es =>
      let folders := es.toList.filterMap (fun c =>
        if c.isDirE then
          some (⟨lossyPathDisplay (root ++ [c.nameOf]),
                 (osToStr c.nameOf).getD "Unknown", 0⟩ : FolderInfo)
        else none)
      let images := es.toList.filterMap (fun c =>
        if c.isFileE && isValidImage c.nameOf then
          some (⟨lossyPathDisplay (root ++ [c.nameOf]),
                 (osToStr c.nameOf).getD "Unknown"⟩ : ImageInfo)
        else none)
      .ok ⟨folders.mergeSort folderNameLe, images.mergeSort imageNameLe,
           lossyPathDisplay root⟩

/-- Default record for positional access in statements. -/
def dummyRec : ThumbnailInfo := ⟨"", "", "", "", ""⟩

/-- Default report for positional access in statements. -/
def dummyReport : BatchProgress := ⟨0, 0, [], 0⟩

/-- Claim-side reading of C8: the image's path relative to the scan root's
PARENT directory (not what the code computes). -/
def relToRootParent (root q : FsPath) : Option FsPath :=
  (parentComps root).bind (fun rp => stripRoot rp q)

/-- The folder listing of a `browse_folder` result (empty on error). -/
def foldersOf : Except String FolderContents → List FolderInfo
  | .error _ => []
  | .ok res => res.folders

/-- All reports' records in delivery order, flattened. -/
def flatRecords (res : List BatchProgress × Option String) : List ThumbnailInfo :=
  (res.1.map (fun r => r.thumbnails)).flatten

/-- Concrete scan root used by witnesses: the path "r". -/
def fixRoot : FsPath := [strBytes "r"]

/-- Concrete directory listing: a.jpg, b.txt, sub/c.jpg. -/
def fixEntries : FsEntries :=
  .cons (.file (strBytes "a.jpg"))
    (.cons (.file (strBytes "b.txt"))
      (.cons (.dir (strBytes "sub") true (.cons (.file (strBytes "c.jpg")) .nil))
        .nil))

/-- Concrete tree at root "r" with the listing `fixEntries`. -/
def fixTree : FsEntry := .dir (strBytes "r") true fixEntries

/-- The images the scan of `fixTree` discovers, in traversal order. -/
def fixImgs : List FsPath :=
  [[strBytes "r", strBytes "a.jpg"], [strBytes "r", strBytes "sub", strBytes "c.jpg"]]

/-- Tree whose subfolders are listed in the order b, a. -/
def fixTreeBA : FsEntry :=
  .dir (strBytes "r") true
    (.cons (.dir (strBytes "b") true (.cons (.file (strBytes "x.jpg")) .nil))
      (.cons (.dir (strBytes "a") true (.cons (.file (strBytes "y.jpg")) .nil))
        .nil))

/-- Oracle environment in which every thumbnail generation succeeds and
every report is delivered. -/
def envAllOk : ImportEnv := ⟨fun _ => "u", fun _ => .ok "t.jpg", fun _ => true⟩

/-- Oracle environment in which every generation fails with `Skip`
(decode/resize/encode failure); reports are delivered. -/
def envSkip : ImportEnv := ⟨fun _ => "u", fun _ => .error "Skip", fun _ => true⟩

/-- Oracle environment in which the thumbnail output directory cannot be
created: every `generate_fast_thumbnail` call fails with the
`create_dir_all` error message; reports are delivered. -/
def envDirFail : ImportEnv :=
  ⟨fun _ => "u",
   fun _ => .error "Failed to create thumbnails dir: permission denied",
   fun _ => true⟩

/-- Lookup in the association-list rendering of the folder map. -/
def lookupC (k : String) : List (String × Nat) → Option Nat
  | [] => none
  | (k0, c) :: rest => if k0 = k then some c else lookupC k rest

/-- The grouping key of one image in `quick_scan`: its parent directory's
`to_string_lossy` display (none when the path has no parent). -/
def keyOf (q : FsPath) : Option String := (parentComps q).map lossyPathDisplay

/-- The key column of the folder map. -/
def keysC (m : List (String × Nat)) : List String := m.map (fun pr => pr.1)

/-- Total of all folder counts. -/
def sumCounts (m : List (String × Nat)) : Nat := (m.map (fun pr => pr.2)).sum

theorem chunksFuel_flatten (m : Nat) {α : Type} : ∀ (fuel : Nat) (l : List α),
    l.length ≤ fuel → (chunksFuel (m + 1) fuel l).flatten = l
  | _, [], _ => by simp [chunksFuel]
  | 0, x :: xs, h => by simp at h
  | fuel + 1, x :: xs, h => by
    have h2 : xs.length ≤ fuel := by simpa using h
    have hd : (xs.drop m).length ≤ fuel := by
      simp only [List.length_drop]; omega
    show ((x :: xs.take (m + 1 - 1)) :: chunksFuel (m + 1) fuel (xs.drop (m + 1 - 1))).flatten
        = x :: xs
    simp [chunksFuel_flatten m fuel (xs.drop m) hd]

theorem chunksFuel_length (m : Nat) {α : Type} : ∀ (fuel : Nat) (l : List α),
    l.length ≤ fuel → (chunksFuel (m + 1) fuel l).length = (l.length + m) / (m + 1)
  | _, [], _ => by
    have e0 : m / (m + 1) = 0 := Nat.div_eq_of_lt (by omega)
    simp [chunksFuel, e0]
  | 0, x :: xs, h => by simp at h
  | fuel + 1, x :: xs, h => by
    have h2 : xs.length ≤ fuel := by simpa using h
    have hd : (xs.drop m).length ≤ fuel := by
      simp only [List.length_drop]; omega
    have ih := chunksFuel_length m fuel (xs.drop m) hd
    show ((x :: xs.take (m + 1 - 1)) :: chunksFuel (m + 1) fuel (xs.drop (m + 1 - 1))).length
        = ((x :: xs).length + m) / (m + 1)
    simp only [List.length_cons, ih, List.length_drop, Nat.add_sub_cancel]
    rcases le_or_lt m xs.length with hc | hc
    · rw [Nat.sub_add_cancel hc]
      have e1 : xs.length + 1 + m = xs.length + (m + 1) := by omega
      rw [e1, Nat.add_div_right _ (Nat.succ_pos m)]
    · have e1 : xs.length - m = 0 := by omega
      rw [e1]
      have e2 : m / (m + 1) = 0 := Nat.div_eq_of_lt (by omega)
      have e3 : (xs.length + 1 + m) / (m + 1) = 1 := by
        apply Nat.div_eq_of_lt_le <;> omega
      rw [Nat.zero_add, e2, e3]

theorem chunksFuel_mem_length (m : Nat) {α : Type} : ∀ (fuel : Nat) (l : List α) (c : List α),
    c ∈ chunksFuel (m + 1) fuel l → c.length ≤ m + 1
  | _, [], c, hc => by simp [chunksFuel] at hc
  | 0, _ :: _, c, hc => by simp [chunksFuel] at hc
  | fuel + 1, x :: xs, c, hc => by
    rcases List.mem_cons.mp hc with rfl | hc2
    · simp only [List.length_cons, List.length_take, Nat.add_sub_cancel]
      omega
    · exact chunksFuel_mem_length m fuel (xs.drop (m + 1 - 1)) c hc2

theorem mkBatchRecords_length (env : ImportEnv) (root : FsPath) : ∀ (g : Nat) (l : List FsPath),
    (mkBatchRecords env root g l).length = l.length
  | _, [] => rfl
  | g, _ :: qs => by
    simp [mkBatchRecords, mkBatchRecords_length env root (g + 1) qs]

theorem mkBatchRecords_append (env : ImportEnv) (root : FsPath) :
    ∀ (g : Nat) (a b : List FsPath),
      mkBatchRecords env root g (a ++ b)
        = mkBatchRecords env root g a ++ mkBatchRecords env root (g + a.length) b
  | g, [], b => by simp [mkBatchRecords]
  | g, q :: qs, b => by
    have ih := mkBatchRecords_append env root (g + 1) qs b
    have e1 : g + 1 + qs.length = g + (qs.length + 1) := by omega
    simp [mkBatchRecords, ih, e1]

theorem mkBatchRecords_getD (env : ImportEnv) (root : FsPath) :
    ∀ (g : Nat) (l : List FsPath) (i : Nat), i < l.length →
      (mkBatchRecords env root g l).getD i dummyRec = mkRecord env root (g + i) (l.getD i [])
  | _, [], i, h => by simp at h
  | g, q :: qs, 0, _ => by simp [mkBatchRecords]
  | g, q :: qs, i + 1, h => by
    have ih := mkBatchRecords_getD env root (g + 1) qs i (by simpa using h)
    have e1 : g + 1 + i = g + (i + 1) := by omega
    rw [e1] at ih
    simpa [mkBatchRecords, List.getD_cons_succ] using ih

theorem mkBatchRecords_map_orig (env : ImportEnv) (root : FsPath) :
    ∀ (g : Nat) (l : List FsPath),
      (mkBatchRecords env root g l).map (fun t => t.original_path) = l.map lossyPathDisplay
  | _, [] => rfl
  | g, q :: qs => by
    simp [mkBatchRecords, mkBatchRecords_map_orig env root (g + 1) qs, mkRecord]

theorem runBatches_emitAll (env : ImportEnv) (root : FsPath) (T : Nat)
    (hemit : ∀ b, env.emitOk b = true) :
    ∀ (chs : List (List FsPath)) (b g : Nat),
      (runBatches env root T chs b g).2 = none ∧
      (runBatches env root T chs b g).1.length = chs.length ∧
      ((runBatches env root T chs b g).1.map (fun r => r.thumbnails)).flatten
        = mkBatchRecords env root g chs.flatten
  | [], b, g => by simp [runBatches, mkBatchRecords]
  | chunk :: rest, b, g => by
    have ih := runBatches_emitAll env root T hemit rest (b + 1) (g + chunk.length)
    simp [runBatches, hemit b, ih.1, ih.2.1, ih.2.2, mkBatchRecords_append]

theorem runBatches_progress (env : ImportEnv) (root : FsPath) (T : Nat)
    (hemit : ∀ b, env.emitOk b = true) :
    ∀ (chs : List (List FsPath)) (b g k : Nat), k < chs.length →
      ((runBatches env root T chs b g).1.getD k dummyReport).progress
        = (((b + k + 1 : ℕ) : ℚ) / (T : ℚ)) * 100
  | [], _, _, k, hk => by simp at hk
  | chunk :: rest, b, g, 0, _ => by
    simp [runBatches, hemit b]
  | chunk :: rest, b, g, k + 1, hk => by
    have ih := runBatches_progress env root T hemit rest (b + 1) (g + chunk.length) k
      (by simpa using hk)
    have e1 : b + 1 + k + 1 = b + (k + 1) + 1 := by omega
    rw [e1] at ih
    simpa [runBatches, hemit b] using ih

theorem runBatches_thumb_le (env : ImportEnv) (root : FsPath) (T n : Nat) :
    ∀ (chs : List (List FsPath)) (b g : Nat), (∀ c ∈ chs, c.length ≤ n) →
      ∀ r ∈ (runBatches env root T chs b g).1, r.thumbnails.length ≤ n
  | [], b, g, _, r, hr => by simp [runBatches] at hr
  | chunk :: rest, b, g, hch, r, hr => by
    by_cases he : env.emitOk b
    · simp [runBatches, he] at hr
      rcases hr with rfl | hr2
      · simp only [mkBatchRecords_length]
        exact hch chunk (by simp)
      · exact runBatches_thumb_le env root T n rest (b + 1) (g + chunk.length)
          (fun c hc => hch c (by simp [hc])) r hr2
    · simp [runBatches, he] at hr

theorem runBatches_gen_indep (e1 e2 : ImportEnv) (root : FsPath) (T : Nat)
    (he : e1.emitOk = e2.emitOk) :
    ∀ (chs : List (List FsPath)) (b g1 g2 : Nat),
      (runBatches e1 root T chs b g1).2 = (runBatches e2 root T chs b g2).2 ∧
      (runBatches e1 root T chs b g1).1.length = (runBatches e2 root T chs b g2).1.length ∧
      ((runBatches e1 root T chs b g1).1.map (fun r => r.thumbnails)).flatten.length
        = ((runBatches e2 root T chs b g2).1.map (fun r => r.thumbnails)).flatten.length
  | [], b, g1, g2 => by simp [runBatches]
  | chunk :: rest, b, g1, g2 => by
    have ih := runBatches_gen_indep e1 e2 root T he rest (b + 1) (g1 + chunk.length)
      (g2 + chunk.length)
    by_cases hb : e2.emitOk b
    · simp [runBatches, he, hb, ih.1, ih.2.1, ih.2.2, mkBatchRecords_length]
    · simp [runBatches, he, hb]

mutual
theorem scanRec_shape : ∀ (p : FsPath) (e : FsEntry) (l : List FsPath),
    scanRecursive p e = .ok l → ∀ q ∈ l, ∃ r, r ≠ [] ∧ q = p ++ r
  | p, .dir n true es, l, h, q, hq =>
    scanEntries_shape p es l h q hq
  | _, .dir _ false _, _, h, _, _ => by simp [scanRecursive] at h
  | _, .file _, _, h, _, _ => by simp [scanRecursive] at h
  | _, .other _, _, h, _, _ => by simp [scanRecursive] at h

theorem scanEntries_shape : ∀ (p : FsPath) (es : FsEntries) (l : List FsPath),
    scanEntriesAux p es = .ok l → ∀ q ∈ l, ∃ r, r ≠ [] ∧ q = p ++ r
  | p, .nil, l, h, q, hq => by
    simp [scanEntriesAux] at h
    subst h; simp at hq
  | p, .cons c cs, l, h, q, hq => by
    rw [scanEntriesAux] at h
    by_cases hd : c.isDirE
    · rw [if_pos hd] at h
      cases hrec : scanRecursive (p ++ [c.nameOf]) c with
      | error e => rw [hrec] at h; simp at h
      | ok l1 =>
        rw [hrec] at h
        cases hrest : scanEntriesAux p cs with
        | error e => rw [hrest] at h; simp at h
        | ok l2 =>
          rw [hrest] at h
          simp only [Except.ok.injEq] at h
          subst h
          rcases List.mem_append.mp hq with h1 | h2
          · obtain ⟨r, hr, hqe⟩ := scanRec_shape (p ++ [c.nameOf]) c l1 hrec q h1
            exact ⟨c.nameOf :: r, by simp, by simp [hqe]⟩
          · exact scanEntries_shape p cs l2 hrest q h2
    · rw [if_neg hd] at h
      by_cases hf : c.isFileE
      · rw [if_pos hf] at h
        cases hrest : scanEntriesAux p cs with
        | error e => rw [hrest] at h; simp at h
        | ok l2 =>
          rw [hrest] at h
          simp only [Except.ok.injEq] at h
          subst h
          rcases List.mem_append.mp hq with h1 | h2
          · by_cases hv : isValidImage c.nameOf
            · rw [if_pos hv] at h1
              simp at h1
              exact ⟨[c.nameOf], by simp, by simp [h1]⟩
            · rw [if_neg hv] at h1; simp at h1
          · exact scanEntries_shape p cs l2 hrest q h2
      · rw [if_neg hf] at h
        exact scanEntries_shape p cs l h q hq
end

theorem scan_shape (root : FsPath) (fs : Option FsEntry) (imgs : List FsPath)
    (h : scanForImages root fs = .ok imgs) :
    ∀ q ∈ imgs, ∃ r, r ≠ [] ∧ q = root ++ r := by
  cases fs with
  | none => simp [scanForImages] at h
  | some e => exact scanRec_shape root e imgs h

mutual
theorem scanRec_filter : ∀ (p : FsPath) (c : FsEntry),
    allReadableE c = true → c.isDirE = true →
    scanRecursive (p ++ [c.nameOf]) c
      = .ok ((allFilesE p c).filter (fun q => isValidImage (q.getLastD [])))
  | p, .dir n r es, hr, _ => by
    have h2 : r = true ∧ allReadableL es = true := by simpa [allReadableE] using hr
    obtain ⟨rfl, hres⟩ := h2
    exact scanEntries_filter (p ++ [n]) es hres
  | _, .file _, _, hd => by simp [FsEntry.isDirE] at hd
  | _, .other _, _, hd => by simp [FsEntry.isDirE] at hd

theorem scanEntries_filter : ∀ (p : FsPath) (es : FsEntries), allReadableL es = true →
    scanEntriesAux p es
      = .ok ((allFilesL p es).filter (fun q => isValidImage (q.getLastD [])))
  | p, .nil, _ => by simp [scanEntriesAux, allFilesL]
  | p, .cons c cs, h => by
    have h2 : allReadableE c = true ∧ allReadableL cs = true := by
      simpa [allReadableL] using h
    obtain ⟨hc, hcs⟩ := h2
    have ihcs := scanEntries_filter p cs hcs
    rw [scanEntriesAux]
    by_cases hd : c.isDirE
    · have ihc := scanRec_filter p c hc hd
      rw [if_pos hd, ihc, ihcs]
      simp [allFilesL, List.filter_append]
    · rw [if_neg hd]
      by_cases hf : c.isFileE
      · rw [if_pos hf, ihcs]
        cases c with
        | file n =>
          cases hv : isValidImage n <;>
            simp [hv, allFilesL, allFilesE, FsEntry.nameOf, List.filter_append,
              List.filter, List.getLastD_concat]
        | dir n r sub => simp [FsEntry.isDirE] at hd
        | other n => simp [FsEntry.isFileE] at hf
      · rw [if_neg hf, ihcs]
        cases c with
        | file n => simp [FsEntry.isFileE] at hf
        | dir n r sub => simp [FsEntry.isDirE] at hd
        | other n => simp [allFilesL, allFilesE]
end

theorem bump_lookupD (k k0 : String) : ∀ (m : List (String × Nat)),
    (lookupC k (bump k0 m)).getD 0
      = (lookupC k m).getD 0 + (if k = k0 then 1 else 0)
  | [] => by
    by_cases h : k = k0
    · simp [bump, lookupC, h]
    · have h2 : ¬ k0 = k := fun hh => h hh.symm
      simp [bump, lookupC, h, h2]
  | (k1, c) :: rest => by
    by_cases h1 : k1 = k0
    · subst h1
      by_cases h2 : k1 = k
      · subst h2
        simp [bump, lookupC]
      · have h3 : ¬ k = k1 := fun hh => h2 hh.symm
        simp [bump, lookupC, h2, h3]
    · by_cases h2 : k1 = k
      · have h3 : ¬ k = k0 := fun hh => h1 (h2.trans hh)
        simp [bump, lookupC, h1, h2, h3]
      · simp [bump, lookupC, h1, h2, bump_lookupD k k0 rest]

theorem bump_keysC (k0 : String) : ∀ (m : List (String × Nat)),
    keysC (bump k0 m) = if k0 ∈ keysC m then keysC m else keysC m ++ [k0]
  | [] => by simp [bump, keysC]
  | (k1, c) :: rest => by
    by_cases h1 : k1 = k0
    · subst h1
      simp [bump, keysC]
    · have ih := bump_keysC k0 rest
      have h2 : ¬ k0 = k1 := fun hh => h1 hh.symm
      have hcons : keysC ((k1, c) :: rest) = k1 :: keysC rest := by simp [keysC]
      have hbump : keysC (bump k0 ((k1, c) :: rest)) = k1 :: keysC (bump k0 rest) := by
        simp [bump, keysC, h1]
      by_cases h3 : k0 ∈ keysC rest
      · rw [if_pos h3] at ih
        have hm : k0 ∈ keysC ((k1, c) :: rest) := by
          rw [hcons]; exact List.mem_cons_of_mem _ h3
        rw [hbump, ih, if_pos hm, hcons]
      · rw [if_neg h3] at ih
        have hm : k0 ∉ keysC ((k1, c) :: rest) := by
          rw [hcons]; simp [h2, h3]
        rw [hbump, ih, if_neg hm, hcons]
        simp

theorem bump_nodup (k0 : String) (m : List (String × Nat)) (h : (keysC m).Nodup) :
    (keysC (bump k0 m)).Nodup := by
  rw [bump_keysC]
  by_cases hm : k0 ∈ keysC m
  · simpa [hm] using h
  · simp [hm, List.nodup_append, h]

theorem mem_lookupC : ∀ (m : List (String × Nat)) (k : String) (c : Nat),
    (keysC m).Nodup → (k, c) ∈ m → lookupC k m = some c
  | [], _, _, _, hm => by simp at hm
  | (k1, c1) :: rest, k, c, hnd, hm => by
    rcases List.mem_cons.mp hm with he | hm2
    · simp only [Prod.mk.injEq] at he
      obtain ⟨rfl, rfl⟩ := he
      simp [lookupC]
    · have hk : k ∈ keysC rest := List.mem_map.mpr ⟨(k, c), hm2, rfl⟩
      have hnd2 : k1 ∉ keysC rest ∧ (keysC rest).Nodup := by
        simpa [keysC, List.nodup_cons] using hnd
      have hne : ¬ k1 = k := fun hh => hnd2.1 (hh ▸ hk)
      simp [lookupC, hne, mem_lookupC rest k c hnd2.2 hm2]

theorem bump_sum (k0 : String) : ∀ (m : List (String × Nat)),
    sumCounts (bump k0 m) = sumCounts m + 1
  | [] => by simp [bump, sumCounts]
  | (k1, c) :: rest => by
    by_cases h : k1 = k0
    · subst h
      simp [bump, sumCounts]
      omega
    · have hb : bump k0 ((k1, c) :: rest) = (k1, c) :: bump k0 rest := by
        simp [bump, h]
      rw [hb]
      have ih := bump_sum k0 rest
      simp only [sumCounts, List.map_cons, List.sum_cons] at ih ⊢
      omega

theorem fold_lookupD (k : String) : ∀ (imgs : List FsPath) (m : List (String × Nat)),
    (lookupC k (imgs.foldl folderStep m)).getD 0
      = (lookupC k m).getD 0 + (imgs.filter (fun q => keyOf q = some k)).length
  | [], m => by simp
  | q :: imgs, m => by
    rw [List.foldl_cons]
    cases hq : parentComps q with
    | none =>
      have hstep : folderStep m q = m := by simp [folderStep, hq]
      have hkey : keyOf q = none := by simp [keyOf, hq]
      rw [hstep, fold_lookupD k imgs m]
      simp [List.filter_cons, hkey]
    | some par =>
      have hstep : folderStep m q = bump (lossyPathDisplay par) m := by
        simp [folderStep, hq]
      have hkey : keyOf q = some (lossyPathDisplay par) := by simp [keyOf, hq]
      rw [hstep, fold_lookupD k imgs (bump (lossyPathDisplay par) m), bump_lookupD]
      by_cases hk : k = lossyPathDisplay par
      · have hfil : List.filter (fun x => decide (keyOf x = some k)) (q :: imgs)
            = q :: List.filter (fun x => decide (keyOf x = some k)) imgs := by
          rw [List.filter_cons, if_pos (by simp [hkey, hk])]
        rw [hfil, if_pos hk, List.length_cons]
        omega
      · have hfil : List.filter (fun x => decide (keyOf x = some k)) (q :: imgs)
            = List.filter (fun x => decide (keyOf x = some k)) imgs := by
          rw [List.filter_cons,
            if_neg (by simp [hkey]; exact fun hh => hk hh.symm)]
        rw [hfil, if_neg hk]
        omega

theorem fold_nodup : ∀ (imgs : List FsPath) (m : List (String × Nat)),
    (keysC m).Nodup → (keysC (imgs.foldl folderStep m)).Nodup
  | [], m, h => h
  | q :: imgs, m, h => by
    rw [List.foldl_cons]
    cases hq : parentComps q with
    | none =>
      have hstep : folderStep m q = m := by simp [folderStep, hq]
      rw [hstep]
      exact fold_nodup imgs m h
    | some par =>
      have hstep : folderStep m q = bump (lossyPathDisplay par) m := by
        simp [folderStep, hq]
      rw [hstep]
      exact fold_nodup imgs _ (bump_nodup _ m h)

theorem fold_sum : ∀ (imgs : List FsPath) (m : List (String × Nat)),
    sumCounts (imgs.foldl folderStep m)
      = sumCounts m + imgs.countP (fun q => (keyOf q).isSome)
  | [], m => by simp
  | q :: imgs, m => by
    rw [List.foldl_cons]
    cases hq : parentComps q with
    | none =>
      have hstep : folderStep m q = m := by simp [folderStep, hq]
      have hkey : (keyOf q).isSome = false := by simp [keyOf, hq]
      rw [hstep, fold_sum imgs m]
      simp [List.countP_cons, hkey]
    | some par =>
      have hstep : folderStep m q = bump (lossyPathDisplay par) m := by
        simp [folderStep, hq]
      have hkey : (keyOf q).isSome = true := by simp [keyOf, hq]
      rw [hstep, fold_sum imgs _, bump_sum]
      simp [List.countP_cons, hkey]
      omega

theorem cpListLe_total : ∀ (a b : List Nat), cpListLe a b = true ∨ cpListLe b a = true
  | [], _ => Or.inl rfl
  | _ :: _, [] => Or.inr rfl
  | a :: as, b :: bs => by
    rcases Nat.lt_trichotomy a b with h | h | h
    · left; simp [cpListLe, h]
    · subst h
      rcases cpListLe_total as bs with ih | ih
      · left; simp [cpListLe, ih]
      · right; simp [cpListLe, ih]
    · right; simp [cpListLe, h]

theorem cpListLe_trans : ∀ (a b c : List Nat),
    cpListLe a b = true → cpListLe b c = true → cpListLe a c = true
  | [], _, _, _, _ => rfl
  | _ :: _, [], _, h1, _ => by simp [cpListLe] at h1
  | _ :: _, _ :: _, [], _, h2 => by simp [cpListLe] at h2
  | a :: as, b :: bs, c :: cs, h1, h2 => by
    by_cases hab : a < b
    · by_cases hbc : b < c
      · have hac : a < c := lt_trans hab hbc
        simp [cpListLe, hac]
      · by_cases hcb : c < b
        · simp [cpListLe, hbc, hcb] at h2
        · have hbc2 : b = c := by omega
          subst hbc2
          simp [cpListLe, hab]
    · by_cases hba : b < a
      · simp [cpListLe, hab, hba] at h1
      · have hab2 : a = b := by omega
        subst hab2
        by_cases hbc : a < c
        · simp [cpListLe, hbc]
        · by_cases hcb : c < a
          · simp [cpListLe, hbc, hcb] at h2
          · simp only [cpListLe, if_neg hab, if_neg hba] at h1
            simp only [cpListLe, if_neg hbc, if_neg hcb] at h2 ⊢
            exact cpListLe_trans as bs cs h1 h2

theorem folderNameLe_trans (a b c : FolderInfo) :
    folderNameLe a b → folderNameLe b c → folderNameLe a c := by
  simp only [folderNameLe, strLe]
  exact fun h1 h2 => cpListLe_trans _ _ _ h1 h2

theorem folderNameLe_total (a b : FolderInfo) : folderNameLe a b || folderNameLe b a := by
  simp only [folderNameLe, strLe]
  rcases cpListLe_total ((lowerStr a.name).data.map Char.toNat)
    ((lowerStr b.name).data.map Char.toNat) with h | h <;> simp [h]

/-- C1: over any discovered image list of length N and the fixed batch size
B = 100, a fully delivered import run returns no error and emits exactly
`ceil(N/B)` = `(N + 100 - 1) / 100` reports (zero when N = 0), each report
carries at most 100 records, and the flattened records line up one-to-one
and in discovery order with the scanned images (so their total count is N). -/
theorem C1_batch_report_shape (env : ImportEnv) (root : FsPath) (fs : Option FsEntry)
    (imgs : List FsPath) (hscan : scanForImages root fs = .ok imgs)
    (hemit : ∀ b, env.emitOk b = true) :
    (importPackProgressive env root fs).2 = none ∧
    (importPackProgressive env root fs).1.length = (imgs.length + 100 - 1) / 100 ∧
    (imgs = [] → (importPackProgressive env root fs).1 = []) ∧
    (∀ r ∈ (importPackProgressive env root fs).1, r.thumbnails.length ≤ 100) ∧
    (flatRecords (importPackProgressive env root fs)).length = imgs.length ∧
    (flatRecords (importPackProgressive env root fs)).map (fun t => t.original_path)
      = imgs.map lossyPathDisplay := by
  have himp : importPackProgressive env root fs
      = runBatches env root ((imgs.length + 100 - 1) / 100) (chunksOf 100 imgs) 0 0 := by
    simp [importPackProgressive, hscan]
  have hall := runBatches_emitAll env root ((imgs.length + 100 - 1) / 100) hemit
    (chunksOf 100 imgs) 0 0
  have hflat : (chunksOf 100 imgs).flatten = imgs :=
    chunksFuel_flatten 99 imgs.length imgs le_rfl
  have hlen : (chunksOf 100 imgs).length = (imgs.length + 100 - 1) / 100 :=
    chunksFuel_length 99 imgs.length imgs le_rfl
  refine ⟨?_, ?_, ?_, ?_, ?_, ?_⟩
  · rw [himp]; exact hall.1
  · rw [himp, hall.2.1]; exact hlen
  · intro h0; subst h0; rw [himp]; rfl
  · intro r hr
    rw [himp] at hr
    exact runBatches_thumb_le env root _ 100 (chunksOf 100 imgs) 0 0
      (fun c hc => chunksFuel_mem_length 99 imgs.length imgs c hc) r hr
  · simp only [flatRecords, himp]
    rw [hall.2.2, hflat, mkBatchRecords_length]
  · simp only [flatRecords, himp]
    rw [hall.2.2, hflat, mkBatchRecords_map_orig]

/-- C1 witness: the shape law evaluated on the concrete tree
r/{a.jpg, b.txt, sub/c.jpg} (2 discovered images, 1 batch). -/
theorem C1_batch_report_shape_witness :
    scanForImages fixRoot (some fixTree) = .ok fixImgs ∧
    ((importPackProgressive envAllOk fixRoot (some fixTree)).2 = none ∧
    (importPackProgressive envAllOk fixRoot (some fixTree)).1.length
      = (fixImgs.length + 100 - 1) / 100 ∧
    (fixImgs = [] → (importPackProgressive envAllOk fixRoot (some fixTree)).1 = []) ∧
    (∀ r ∈ (importPackProgressive envAllOk fixRoot (some fixTree)).1,
      r.thumbnails.length ≤ 100) ∧
    (flatRecords (importPackProgressive envAllOk fixRoot (some fixTree))).length
      = fixImgs.length ∧
    (flatRecords (importPackProgressive envAllOk fixRoot (some fixTree))).map
        (fun t => t.original_path)
      = fixImgs.map lossyPathDisplay) :=
  ⟨by decide,
   C1_batch_report_shape envAllOk fixRoot (some fixTree) fixImgs (by decide) (fun _ => rfl)⟩

/-- C2: when `generate_fast_thumbnail` fails on the i-th discovered image
(with any error, in particular `Skip`), the import still produces exactly one
record per discovered image, and the i-th record's thumbnail path equals its
original source path. -/
theorem C2_skip_degrades_record (env : ImportEnv) (root : FsPath) (fs : Option FsEntry)
    (imgs : List FsPath) (hscan : scanForImages root fs = .ok imgs)
    (hemit : ∀ b, env.emitOk b = true) (i : Nat) (hi : i < imgs.length)
    (e : String) (hgen : env.gen i = .error e) :
    (flatRecords (importPackProgressive env root fs)).length = imgs.length ∧
    ((flatRecords (importPackProgressive env root fs)).getD i dummyRec).original_path
      = lossyPathDisplay (imgs.getD i []) ∧
    ((flatRecords (importPackProgressive env root fs)).getD i dummyRec).thumbnail_path
      = ((flatRecords (importPackProgressive env root fs)).getD i dummyRec).original_path := by
  have himp : importPackProgressive env root fs
      = runBatches env root ((imgs.length + 100 - 1) / 100) (chunksOf 100 imgs) 0 0 := by
    simp [importPackProgressive, hscan]
  have hall := runBatches_emitAll env root ((imgs.length + 100 - 1) / 100) hemit
    (chunksOf 100 imgs) 0 0
  have hflat : (chunksOf 100 imgs).flatten = imgs :=
    chunksFuel_flatten 99 imgs.length imgs le_rfl
  have hrec : flatRecords (importPackProgressive env root fs)
      = mkBatchRecords env root 0 imgs := by
    simp only [flatRecords, himp]
    rw [hall.2.2, hflat]
  have hget := mkBatchRecords_getD env root 0 imgs i hi
  have hgen0 : env.gen (0 + i) = .error e := by simpa using hgen
  refine ⟨?_, ?_, ?_⟩
  · rw [hrec, mkBatchRecords_length]
  · rw [hrec, hget]
    simp [mkRecord]
  · rw [hrec, hget]
    simp [mkRecord, hgen0, hgen]

/-- C2 witness: with generation failing as `Skip` on every image of the
concrete tree, the first record is present and degraded. -/
theorem C2_skip_degrades_record_witness :
    scanForImages fixRoot (some fixTree) = .ok fixImgs ∧ 0 < fixImgs.length ∧
    envSkip.gen 0 = .error "Skip" ∧
    ((flatRecords (importPackProgressive envSkip fixRoot (some fixTree))).length
      = fixImgs.length ∧
    ((flatRecords (importPackProgressive envSkip fixRoot (some fixTree))).getD 0
        dummyRec).original_path
      = lossyPathDisplay (fixImgs.getD 0 []) ∧
    ((flatRecords (importPackProgressive envSkip fixRoot (some fixTree))).getD 0
        dummyRec).thumbnail_path
      = ((flatRecords (importPackProgressive envSkip fixRoot (some fixTree))).getD 0
        dummyRec).original_path) :=
  ⟨by decide, by decide, rfl,
   C2_skip_degrades_record envSkip fixRoot (some fixTree) fixImgs (by decide)
     (fun _ => rfl) 0 (by decide) "Skip" rfl⟩

/-- C5: if the scan fails (for instance with the path-not-found condition),
the whole import fails with precisely the scanner's error and delivers zero
progress reports. -/
theorem C5_scan_failure_aborts_import (env : ImportEnv) (root : FsPath)
    (fs : Option FsEntry) (e : String) (hscan : scanForImages root fs = .error e) :
    importPackProgressive env root fs = ([], some e) := by
  simp [importPackProgressive, hscan]

/-- C5 witness: a nonexistent root fails the scan with the path-not-found
message, and the import returns that error with no reports. -/
theorem C5_scan_failure_aborts_import_witness :
    scanForImages fixRoot none = .error "Path does not exist: r" ∧
    importPackProgressive envAllOk fixRoot none = ([], some "Path does not exist: r") :=
  ⟨by decide,
   C5_scan_failure_aborts_import envAllOk fixRoot none "Path does not exist: r" (by decide)⟩

/-- C10: `count_folder_images` never fails — it returns `Ok` for every
input; it returns `Ok 0` whenever the scan fails (nonexistent root,
unreadable directory), and `Ok` of the number of discovered images whenever
the scan succeeds. -/
theorem C10_count_never_fails (root : FsPath) (fs : Option FsEntry) :
    (∃ n, countFolderImages root fs = .ok n) ∧
    (∀ e, scanForImages root fs = .error e → countFolderImages root fs = .ok 0) ∧
    (∀ l, scanForImages root fs = .ok l → countFolderImages root fs = .ok l.length) := by
  refine ⟨⟨_, rfl⟩, ?_, ?_⟩
  · intro e he
    simp [countFolderImages, he]
  · intro l hl
    simp [countFolderImages, hl]

/-- C10 witness: on a nonexistent root the scan fails with path-not-found
yet the count returns `Ok 0`; on the concrete tree it returns `Ok 2`. -/
theorem C10_count_never_fails_witness :
    (scanForImages fixRoot none = .error "Path does not exist: r" ∧
      countFolderImages fixRoot none = .ok 0) ∧
    (scanForImages fixRoot (some fixTree) = .ok fixImgs ∧
      countFolderImages fixRoot (some fixTree) = .ok fixImgs.length) :=
  ⟨⟨by decide,
    (C10_count_never_fails fixRoot none).2.1 "Path does not exist: r" (by decide)⟩,
   ⟨by decide, (C10_count_never_fails fixRoot (some fixTree)).2.2 fixImgs (by decide)⟩⟩

/-- C4 counterexample: the claim says a failure to create the thumbnail
output directory aborts the run and surfaces the error. In the code the
`create_dir_all` error of `generate_fast_thumbnail` is swallowed by the
`unwrap_or_else` at the call site (lib.rs line 284), exactly like a `Skip`:
with every generation call failing with the `Failed to create thumbnails
dir` error, the concrete run still returns `Ok` (no error), delivers its
batch, and merely degrades every record to its source path. -/
theorem C4_counterexample :
    (importPackProgressive envDirFail fixRoot (some fixTree)).2 = none ∧
    (importPackProgressive envDirFail fixRoot (some fixTree)).1.length = 1 ∧
    (flatRecords (importPackProgressive envDirFail fixRoot (some fixTree))).all
      (fun t => t.thumbnail_path == t.original_path) = true := by
  refine ⟨by decide, by decide, by decide⟩

/-- C4 amended: a failure of `generate_fast_thumbnail` — including the
inability to create the thumbnail output directory — never aborts the run,
never changes whether the run errors, and never changes how many reports or
records are produced: two runs whose environments differ only in the
generation (and id) oracles have the same terminal error, the same report
count, and the same total record count. (Combined with the C2 theorem, the
affected records fall back to their source paths.) -/
theorem C4_amended_generation_never_fatal (e1 e2 : ImportEnv) (root : FsPath)
    (fs : Option FsEntry) (he : e1.emitOk = e2.emitOk) :
    (importPackProgressive e1 root fs).2 = (importPackProgressive e2 root fs).2 ∧
    (importPackProgressive e1 root fs).1.length
      = (importPackProgressive e2 root fs).1.length ∧
    (flatRecords (importPackProgressive e1 root fs)).length
      = (flatRecords (importPackProgressive e2 root fs)).length := by
  cases hscan : scanForImages root fs with
  | error e =>
    simp [importPackProgressive, hscan, flatRecords]
  | ok imgs =>
    have h := runBatches_gen_indep e1 e2 root ((imgs.length + 100 - 1) / 100) he
      (chunksOf 100 imgs) 0 0 0
    simp only [importPackProgressive, hscan, flatRecords]
    exact ⟨h.1, h.2.1, h.2.2⟩

/-- C4 amended witness: the all-failing and all-succeeding generation
environments produce identical error/report/record shapes on the concrete
tree. -/
theorem C4_amended_generation_never_fatal_witness :
    envDirFail.emitOk = envAllOk.emitOk ∧
    ((importPackProgressive envDirFail fixRoot (some fixTree)).2
      = (importPackProgressive envAllOk fixRoot (some fixTree)).2 ∧
    (importPackProgressive envDirFail fixRoot (some fixTree)).1.length
      = (importPackProgressive envAllOk fixRoot (some fixTree)).1.length ∧
    (flatRecords (importPackProgressive envDirFail fixRoot (some fixTree))).length
      = (flatRecords (importPackProgressive envAllOk fixRoot (some fixTree))).length) :=
  ⟨rfl, C4_amended_generation_never_fatal envDirFail envAllOk fixRoot (some fixTree) rfl⟩

/-- C6: on a fully delivered run over N > 0 images, the k-th report's
progress equals `((k + 1) / total_batches) * 100` (the code's formula, over
`ℚ`), successive progress values are non-decreasing, and the last report's
progress is exactly 100. -/
theorem C6_progress_monotone_to_100 (env : ImportEnv) (root : FsPath)
    (fs : Option FsEntry) (imgs : List FsPath)
    (hscan : scanForImages root fs = .ok imgs)
    (hemit : ∀ b, env.emitOk b = true) (hN : 0 < imgs.length) :
    (∀ k, k < (importPackProgressive env root fs).1.length →
      ((importPackProgressive env root fs).1.getD k dummyReport).progress
        = (((k + 1 : ℕ) : ℚ) / (((imgs.length + 100 - 1) / 100 : ℕ) : ℚ)) * 100) ∧
    (∀ k, k + 1 < (importPackProgressive env root fs).1.length →
      ((importPackProgressive env root fs).1.getD k dummyReport).progress
        ≤ ((importPackProgressive env root fs).1.getD (k + 1) dummyReport).progress) ∧
    (importPackProgressive env root fs).1.getLast?.map (fun r => r.progress)
      = some 100 := by
  have himp : importPackProgressive env root fs
      = runBatches env root ((imgs.length + 100 - 1) / 100) (chunksOf 100 imgs) 0 0 := by
    simp [importPackProgressive, hscan]
  have hall := runBatches_emitAll env root ((imgs.length + 100 - 1) / 100) hemit
    (chunksOf 100 imgs) 0 0
  have hlen : (chunksOf 100 imgs).length = (imgs.length + 100 - 1) / 100 :=
    chunksFuel_length 99 imgs.length imgs le_rfl
  have hrep : (importPackProgressive env root fs).1.length
      = (imgs.length + 100 - 1) / 100 := by
    rw [himp, hall.2.1, hlen]
  have hTpos : 0 < (imgs.length + 100 - 1) / 100 := by
    have h1 := (Nat.one_le_div_iff (by norm_num : 0 < 100)).mpr
      (by omega : 100 ≤ imgs.length + 100 - 1)
    omega
  have hval : ∀ k, k < (importPackProgressive env root fs).1.length →
      ((importPackProgressive env root fs).1.getD k dummyReport).progress
        = (((k + 1 : ℕ) : ℚ) / (((imgs.length + 100 - 1) / 100 : ℕ) : ℚ)) * 100 := by
    intro k hk
    rw [hrep] at hk
    have := runBatches_progress env root ((imgs.length + 100 - 1) / 100) hemit
      (chunksOf 100 imgs) 0 0 k (by rw [hlen]; exact hk)
    rw [himp, this]
    norm_num
  refine ⟨hval, ?_, ?_⟩
  · intro k hk
    have h1 := hval k (by omega)
    have h2 := hval (k + 1) hk
    rw [h1, h2]
    have hc : (0 : ℚ) < (((imgs.length + 100 - 1) / 100 : ℕ) : ℚ) := by
      exact_mod_cast hTpos
    gcongr
    · linarith
  · set T := (imgs.length + 100 - 1) / 100 with hT
    have hne : (importPackProgressive env root fs).1 ≠ [] := by
      intro h0
      rw [h0] at hrep
      simp at hrep
      omega
    have hlast : (importPackProgressive env root fs).1.getLast?
        = some ((importPackProgressive env root fs).1.getD (T - 1) dummyReport) := by
      rw [List.getLast?_eq_getElem?, hrep]
      have hidx : T - 1 < (importPackProgressive env root fs).1.length := by
        rw [hrep]; omega
      rw [List.getElem?_eq_getElem hidx, List.getD_eq_getElem _ _ hidx]
    rw [hlast]
    have hv := hval (T - 1) (by rw [hrep]; omega)
    simp only [Option.map_some']
    rw [hv]
    have he1 : T - 1 + 1 = T := by omega
    rw [he1]
    have hTne : ((T : ℕ) : ℚ) ≠ 0 := by
      exact_mod_cast Nat.pos_iff_ne_zero.mp hTpos
    simp [div_self hTne]

/-- C6 witness: the progress law evaluated on the concrete 2-image tree
(one batch; its only report carries progress 100). -/
theorem C6_progress_monotone_to_100_witness :
    scanForImages fixRoot (some fixTree) = .ok fixImgs ∧ 0 < fixImgs.length ∧
    ((∀ k, k < (importPackProgressive envAllOk fixRoot (some fixTree)).1.length →
      ((importPackProgressive envAllOk fixRoot (some fixTree)).1.getD k
          dummyReport).progress
        = (((k + 1 : ℕ) : ℚ) / (((fixImgs.length + 100 - 1) / 100 : ℕ) : ℚ)) * 100) ∧
    (∀ k, k + 1 < (importPackProgressive envAllOk fixRoot (some fixTree)).1.length →
      ((importPackProgressive envAllOk fixRoot (some fixTree)).1.getD k
          dummyReport).progress
        ≤ ((importPackProgressive envAllOk fixRoot (some fixTree)).1.getD (k + 1)
          dummyReport).progress) ∧
    (importPackProgressive envAllOk fixRoot (some fixTree)).1.getLast?.map
        (fun r => r.progress)
      = some 100) :=
  ⟨by decide, by decide,
   C6_progress_monotone_to_100 envAllOk fixRoot (some fixTree) fixImgs (by decide)
     (fun _ => rfl) (by decide)⟩

/-- C3: over a tree rooted at an existing, readable directory (all of whose
subdirectories are readable), the scan succeeds and returns exactly the
regular files, found transitively in traversal order, whose name passes the
image-extension check — `isValidImage`: the extension after the last dot
exists, decodes as UTF-8, and lower-cases into {jpg, jpeg, png, webp, gif,
bmp} — and no other entries (`allFilesL` lists every regular file;
directories and non-file entries contribute nothing themselves). -/
theorem C3_scan_is_extension_filter (root : FsPath) (n : OsName) (es : FsEntries)
    (h : allReadableL es = true) :
    scanForImages root (some (.dir n true es))
      = .ok ((allFilesL root es).filter (fun q => isValidImage (q.getLastD []))) :=
  scanEntries_filter root es h

/-- C3 witness: on the concrete listing {a.jpg, b.txt, sub/c.jpg} the scan
returns exactly the two image files, in order. -/
theorem C3_scan_is_extension_filter_witness :
    allReadableL fixEntries = true ∧
    scanForImages fixRoot (some (.dir (strBytes "r") true fixEntries))
      = .ok ((allFilesL fixRoot fixEntries).filter
          (fun q => isValidImage (q.getLastD []))) ∧
    (allFilesL fixRoot fixEntries).filter (fun q => isValidImage (q.getLastD []))
      = fixImgs :=
  ⟨by decide,
   C3_scan_is_extension_filter fixRoot (strBytes "r") fixEntries (by decide),
   by decide⟩

/-- C8 counterexample: the claim says the record's relative-path field is
the image's path relative to the scan root's PARENT. For root "r" and image
"r/a.jpg", that reading would give "r/a.jpg"; the code (strip the root, then
take `parent()`) stores "" — the containing directory relative to the root
itself, without the filename. -/
theorem C8_counterexample :
    ((flatRecords (importPackProgressive envAllOk fixRoot (some fixTree))).getD 0
      dummyRec).relative_path = "" ∧
    ((relToRootParent fixRoot (fixImgs.getD 0 [])).bind pathToStr).getD "" = "r/a.jpg" ∧
    ("" : String) ≠ "r/a.jpg" := by
  refine ⟨by decide, by decide, by decide⟩

/-- C8 amended: each discovered image is the root followed by a nonempty
remainder `r`, and its record's relative-path field is the image's
containing directory relative to the scan root — the "/"-joined `r` minus
its last (filename) component, "" when the image sits directly in the root
(or when a component is not valid UTF-8). -/
theorem C8_amended_relative_to_root (env : ImportEnv) (root : FsPath)
    (fs : Option FsEntry) (imgs : List FsPath)
    (hscan : scanForImages root fs = .ok imgs)
    (hemit : ∀ b, env.emitOk b = true) (i : Nat) (hi : i < imgs.length) :
    ∃ r, r ≠ [] ∧ imgs.getD i [] = root ++ r ∧
      ((flatRecords (importPackProgressive env root fs)).getD i dummyRec).relative_path
        = (pathToStr r.dropLast).getD "" := by
  have hmem : imgs.getD i [] ∈ imgs := by
    rw [List.getD_eq_getElem _ _ hi]
    exact List.getElem_mem hi
  obtain ⟨r, hr, hqe⟩ := scan_shape root fs imgs hscan _ hmem
  refine ⟨r, hr, hqe, ?_⟩
  have himp : importPackProgressive env root fs
      = runBatches env root ((imgs.length + 100 - 1) / 100) (chunksOf 100 imgs) 0 0 := by
    simp [importPackProgressive, hscan]
  have hall := runBatches_emitAll env root ((imgs.length + 100 - 1) / 100) hemit
    (chunksOf 100 imgs) 0 0
  have hflat : (chunksOf 100 imgs).flatten = imgs :=
    chunksFuel_flatten 99 imgs.length imgs le_rfl
  have hrec : flatRecords (importPackProgressive env root fs)
      = mkBatchRecords env root 0 imgs := by
    simp only [flatRecords, himp]
    rw [hall.2.2, hflat]
  rw [hrec, mkBatchRecords_getD env root 0 imgs i hi, hqe]
  have hpref : root.isPrefixOf (root ++ r) = true :=
    List.isPrefixOf_iff_prefix.mpr (List.prefix_append root r)
  have hstrip : stripRoot root (root ++ r) = some r := by
    simp [stripRoot, hpref, List.drop_left]
  have hpar : parentComps r = some r.dropLast := by
    cases r with
    | nil => exact absurd rfl hr
    | cons x xs => rfl
  simp [mkRecord, hstrip, hpar]

/-- C8 amended witness: the nested image r/sub/c.jpg gets relative path
"sub" — its containing directory relative to the root. -/
theorem C8_amended_relative_to_root_witness :
    scanForImages fixRoot (some fixTree) = .ok fixImgs ∧ 1 < fixImgs.length ∧
    (∃ r, r ≠ [] ∧ fixImgs.getD 1 [] = fixRoot ++ r ∧
      ((flatRecords (importPackProgressive envAllOk fixRoot (some fixTree))).getD 1
        dummyRec).relative_path = (pathToStr r.dropLast).getD "") :=
  ⟨by decide, by decide,
   C8_amended_relative_to_root envAllOk fixRoot (some fixTree) fixImgs (by decide)
     (fun _ => rfl) 1 (by decide)⟩

/-- C7 counterexample: `quick_scan` (the summarize operation) builds its
folder list from the hash map with no sort; with the subfolders of the root
listed as b then a, the returned folder list is [b, a] — not sorted by
case-insensitive name. (The deterministic model iterates the map in
insertion order; Rust's `HashMap` order is arbitrary, and in particular not
sorted.) -/
theorem C7_counterexample :
    quickScanOp fixRoot (some fixTreeBA)
      = .ok ⟨2, [⟨"r/b", "b", 1⟩, ⟨"r/a", "a", 1⟩]⟩ ∧
    ¬ List.Pairwise (fun a b => folderNameLe a b = true)
        [(⟨"r/b", "b", 1⟩ : FolderInfo), ⟨"r/a", "a", 1⟩] := by
  refine ⟨by decide, by decide⟩

/-- C7 amended: the case-insensitive name ordering holds for the listing
operation `browse_folder`, whose folder list is sorted with the
lower-cased-name comparator; `quick_scan`'s folder list is in unspecified
hash-map order. -/
theorem C7_amended_browse_folders_sorted (root : FsPath) (fs : Option FsEntry) :
    (foldersOf (browseFolder root fs)).Pairwise (fun a b => folderNameLe a b = true) := by
  cases fs with
  | none => simp [browseFolder, foldersOf]
  | some e =>
    cases hrd : readDir e with
    | none => simp [browseFolder, hrd, foldersOf]
    | some es =>
      simp only [browseFolder, hrd, foldersOf]
      exact List.sorted_mergeSort folderNameLe_trans folderNameLe_total _

/-- C9: on a successful summarize run, every returned folder's image count
equals the number of discovered images whose immediate parent directory (its
`to_string_lossy` key) is that folder's path, and the returned total equals
the sum of all folder counts (every discovered image path has a parent). -/
theorem C9_folder_counts_partition (root : FsPath) (fs : Option FsEntry)
    (imgs : List FsPath) (res : QuickScanResult)
    (hscan : scanForImages root fs = .ok imgs)
    (hres : quickScanOp root fs = .ok res) :
    (∀ f ∈ res.folders,
      f.image_count = (imgs.filter (fun q => keyOf q = some f.path)).length) ∧
    res.total = (res.folders.map (fun f => f.image_count)).sum := by
  have hq : quickScanOp root fs
      = .ok ⟨imgs.length, (folderMapOf imgs).map
          (fun pr => ⟨pr.1, (rustFileName pr.1).getD "Unknown", pr.2⟩)⟩ := by
    simp [quickScanOp, hscan]
  rw [hq] at hres
  simp only [Except.ok.injEq] at hres
  subst hres
  have hfm : folderMapOf imgs = imgs.foldl folderStep [] := rfl
  constructor
  · intro f hf
    obtain ⟨pr, hpr, hf2⟩ := List.mem_map.mp hf
    subst hf2
    have hnd : (keysC (folderMapOf imgs)).Nodup := by
      rw [hfm]
      exact fold_nodup imgs [] (by simp [keysC])
    have hlk : lookupC pr.1 (folderMapOf imgs) = some pr.2 := by
      apply mem_lookupC _ _ _ hnd
      simpa using hpr
    have hfold := fold_lookupD pr.1 imgs []
    rw [← hfm, hlk] at hfold
    simpa [lookupC] using hfold
  · have hsum := fold_sum imgs []
    have hall : ∀ q ∈ imgs, (fun q => (keyOf q).isSome) q = true := by
      intro q hq2
      obtain ⟨r, hr, hqe⟩ := scan_shape root fs imgs hscan q hq2
      subst hqe
      have hne : root ++ r ≠ [] := by
        intro h0
        rcases List.append_eq_nil.mp h0 with ⟨_, h2⟩
        exact hr h2
      obtain ⟨x, xs, hxx⟩ := List.exists_cons_of_ne_nil hne
      rw [hxx]
      simp [keyOf, parentComps]
    have hcnt : imgs.countP (fun q => (keyOf q).isSome) = imgs.length :=
      List.countP_eq_length.mpr hall
    have hmaps : ((folderMapOf imgs).map
        (fun pr => (⟨pr.1, (rustFileName pr.1).getD "Unknown", pr.2⟩ : FolderInfo))).map
          (fun f => f.image_count) = (folderMapOf imgs).map (fun pr => pr.2) := by
      rw [List.map_map]
      simp [Function.comp]
    show imgs.length = _
    rw [hmaps]
    have htot : sumCounts (folderMapOf imgs) = imgs.length := by
      rw [hfm, hsum]
      simp [sumCounts, hcnt]
    exact htot.symm

/-- C9 witness: on the concrete tree the two folders "r" (1 image) and
"r/sub" (1 image) partition the 2 discovered images. -/
theorem C9_folder_counts_partition_witness :
    scanForImages fixRoot (some fixTree) = .ok fixImgs ∧
    quickScanOp fixRoot (some fixTree)
      = .ok ⟨2, [⟨"r", "r", 1⟩, ⟨"r/sub", "sub", 1⟩]⟩ ∧
    ((∀ f ∈ (⟨2, [⟨"r", "r", 1⟩, ⟨"r/sub", "sub", 1⟩]⟩ : QuickScanResult).folders,
      f.image_count = (fixImgs.filter (fun q => keyOf q = some f.path)).length) ∧
    (⟨2, [⟨"r", "r", 1⟩, ⟨"r/sub", "sub", 1⟩]⟩ : QuickScanResult).total
      = ((⟨2, [⟨"r", "r", 1⟩, ⟨"r/sub", "sub", 1⟩]⟩ : QuickScanResult).folders.map
          (fun f => f.image_count)).sum) :=
  ⟨by decide, by decide,
   C9_folder_counts_partition fixRoot (some fixTree) fixImgs
     ⟨2, [⟨"r", "r", 1⟩, ⟨"r/sub", "sub", 1⟩]⟩ (by decide) (by decide)⟩
